import Mathlib

/-!
Verification of the CustomTranslator event service (main.go).

The development shallowly embeds the Go source: strings become `List Char`,
`strings.ReplaceAll` becomes `replaceAll` (leftmost, non-overlapping
replacement), the keyword shielding pipeline becomes
`replaceKeywordsWithPlaceholders` / `replacePlaceholdersWithKeywords`, and the
HTTP handlers `postEvent` / `getEvent` become pure state-passing functions.
The external translation service (`translateText`, an HTTP call) is modelled
as an oracle parameter of type `Translator`; its failure modes (transport
error, non-OK status, malformed body, empty translation list) are collapsed
into the `Except` error carrying the cause text. Go `map` values are modelled
as association lists; Go map iteration order is unspecified, so the entry
list order is one fixed enumeration and order-dependence is studied
explicitly via `List.Perm`.
-/

namespace CustomTranslator

/-- Strings are modelled as lists of characters. -/
abbrev Str := List Char

/-- Tests whether the first list starts the second one (prefix test used to
model where `strings.ReplaceAll` matches). -/
def begins : Str → Str → Bool
  | [], _ => true
  | _ :: _, [] => false
  | a :: as, b :: bs => decide (a = b) && begins as bs

/-- Tests whether the first list occurs as a contiguous substring of the
second. -/
def occurs : Str → Str → Bool
  | p, [] => begins p []
  | p, c :: rest => begins p (c :: rest) || occurs p rest

/-- Fuel-driven worker for `replaceAll`; the fuel is an upper bound on the
length of the text, so the recursion is structural and computable by the
kernel. -/
def replaceAllF : Nat → Str → Str → Str → Str
  | 0, _, _, s => s
  | _ + 1, _, _, [] => []
  | fuel + 1, pat, rep, c :: rest =>
    if pat ≠ [] ∧ begins pat (c :: rest) = true then
      rep ++ replaceAllF fuel pat rep ((c :: rest).drop pat.length)
    else
      c :: replaceAllF fuel pat rep rest

/-- Model of Go `strings.ReplaceAll s pat rep`: replaces every leftmost,
non-overlapping occurrence of `pat` in `s` by `rep`.  For the empty pattern
Go matches at the beginning and after every rune, which is the first
branch. -/
def replaceAll (pat rep s : Str) : Str :=
  if pat = [] then rep ++ s.flatMap (fun c => c :: rep)
  else replaceAllF s.length pat rep s

/-- Fuel-driven worker for `natDigits`; fuel `n + 1` always suffices. -/
def natDigitsF : Nat → Nat → List Char
  | 0, _ => []
  | fuel + 1, n =>
    if n < 10 then [Nat.digitChar n]
    else natDigitsF fuel (n / 10) ++ [Nat.digitChar (n % 10)]

/-- Decimal digit string of a natural number, as printed by `fmt.Sprintf`
with verb `%d` (most significant digit first, no leading zeros). -/
def natDigits (n : Nat) : List Char := natDigitsF (n + 1) n

/-- The placeholder token generated for the keyword at index `i`:
`fmt.Sprintf("KW%dPLH", i)` in the source. -/
def placeholder (i : Nat) : Str := 'K' :: 'W' :: (natDigits i ++ ['P', 'L', 'H'])

/-- Worker for `replaceKeywordsWithPlaceholders`, threading the index of the
next keyword.  The Go loop body is
`placeholder := fmt.Sprintf("KW%dPLH", i); text = strings.ReplaceAll(text,
keyword, placeholder); placeholderMap[placeholder] = keyword`.  The map is
modelled as an association list of (placeholder, keyword) pairs in insertion
order. -/
def shieldFrom : Str → List Str → Nat → Str × List (Str × Str)
  | text, [], _ => (text, [])
  | text, kw :: kws, i =>
    let r := shieldFrom (replaceAll kw (placeholder i) text) kws (i + 1)
    (r.1, (placeholder i, kw) :: r.2)

/-- Model of `replaceKeywordsWithPlaceholders`: shields every keyword, in
input order, producing the shielded text and the reverse mapping. -/
def replaceKeywordsWithPlaceholders (text : Str) (keywords : List Str) :
    Str × List (Str × Str) :=
  shieldFrom text keywords 0

/-- Model of `replacePlaceholdersWithKeywords`: replaces each placeholder in
the map by its keyword.  The Go code iterates the map in unspecified order;
here the entries are processed in the order of the given list, so statements
about other iteration orders quantify over permutations of the list. -/
def replacePlaceholdersWithKeywords (text : Str) (m : List (Str × Str)) : Str :=
  m.foldl (fun t e => replaceAll e.1 e.2 t) text

/-- Decidable safety condition for the round trip: at each shielding step the
placeholder about to be introduced does not already occur in the current
text. -/
def shieldSafe : Str → List Str → Nat → Bool
  | _, [], _ => true
  | t, kw :: kws, i =>
    !(occurs (placeholder i) t) &&
      shieldSafe (replaceAll kw (placeholder i) t) kws (i + 1)

/-- Characters that can appear in a placeholder token. -/
def phChar (c : Char) : Bool :=
  c ∈ ['K', 'W', 'P', 'L', 'H', '0', '1', '2', '3', '4', '5', '6', '7', '8', '9']

/-- Shape shared by all placeholder tokens: they start with `'K'`, continue
with at least one character, and no character after the head is `'K'` (all of
them are placeholder-alphabet characters). -/
def GoodPat (p : Str) : Prop :=
  ∃ tl, p = 'K' :: tl ∧ tl ≠ [] ∧ ∀ c ∈ tl, phChar c = true ∧ c ≠ 'K'

/-- Replacement strings that cannot interfere with placeholder tokens:
non-empty and free of placeholder-alphabet characters. -/
def GoodRep (r : Str) : Prop :=
  r ≠ [] ∧ ∀ c ∈ r, phChar c = false

/-- A mapping (as an association list) is one-to-one when each key determines
its value and each value determines its key. -/
def OneToOne (m : List (Str × Str)) : Prop :=
  (∀ p k₁ k₂, (p, k₁) ∈ m → (p, k₂) ∈ m → k₁ = k₂) ∧
  (∀ p₁ p₂ k, (p₁, k) ∈ m → (p₂, k) ∈ m → p₁ = p₂)

/-- The event payload (`EventInfo` in the source).  Go maps become
association lists: `linkNames` maps a label to a URL, `translations` maps a
language code to translated text. -/
structure EventInfo where
  name : Str
  location : Str
  details : Str
  linkNames : List (Str × Str)
  sponsoredMessage : Str
  languages : List Str
  keywords : List Str
  translations : List (Str × Str)
deriving DecidableEq

/-- The abstract translation capability: given the prepared text and a target
language, either the translated text or the failure cause.  This models
`translateText`, whose HTTP call can fail with a transport error, a non-OK
status, a malformed body, or an empty translation list; all of these return
an error whose message is the cause string. -/
def Translator := Str → Str → Except Str Str

/-- Body of an HTTP response: either a serialized event or a message/error
object. -/
inductive RespBody where
  | event (e : EventInfo)
  | msg (s : Str)
deriving DecidableEq

/-- An HTTP response: status code plus body, as produced by `c.JSON`. -/
structure Resp where
  status : Nat
  body : RespBody
deriving DecidableEq

/-- Lookup in the global `events` map, modelled as an association list where
the most recent insertion comes first. -/
def lookupEv : List (Str × EventInfo) → Str → Option EventInfo
  | [], _ => none
  | (k, v) :: rest, key => if k = key then some v else lookupEv rest key

/-- The text composition performed by `postEvent` with `strings.Builder`:
name, a `Location:` label and the location, a `Details:` label and the
details, every link value, each followed by one space, then the sponsored
message. -/
def composeText (event : EventInfo) : Str :=
  (event.name ++ " ".data) ++
    ("Location: ".data ++ event.location ++ " ".data) ++
    ("Details: ".data ++ event.details ++ " ".data) ++
    event.linkNames.foldl (fun acc link => acc ++ link.2 ++ " ".data) [] ++
    event.sponsoredMessage

/-- The error message `fmt.Sprintf("Error translating to %s: %v", lang, err)`
returned when translation of one language fails. -/
def errTranslating (lang cause : Str) : Str :=
  "Error translating to ".data ++ lang ++ ": ".data ++ cause

/-- The per-language translation loop of `postEvent`: for each language in
order, call the translator with the prepared text; on the first failure abort
with the language and cause; on success unshield the result and record it. -/
def runTranslations (tr : Translator) (prepared : Str) (phMap : List (Str × Str)) :
    List Str → Except (Str × Str) (List (Str × Str))
  | [] => .ok []
  | lang :: rest =>
    match tr prepared lang with
    | .error cause => .error (lang, cause)
    | .ok translatedText =>
      match runTranslations tr prepared phMap rest with
      | .error e => .error e
      | .ok ms => .ok ((lang, replacePlaceholdersWithKeywords translatedText phMap) :: ms)

/-- The first language in the list on which the translator fails, together
with the cause, if any. -/
def firstFailure (tr : Translator) (text : Str) : List Str → Option (Str × Str)
  | [] => none
  | lang :: rest =>
    match tr text lang with
    | .error cause => some (lang, cause)
    | .ok _ => firstFailure tr text rest

/-- Model of the `postEvent` handler after a successful `BindJSON`: reject a
duplicate name with 409, otherwise compose the text, shield the keywords,
translate into every requested language (aborting with 500 on the first
failure), unshield each result, store the event and answer 201 with it. -/
def postEvent (tr : Translator) (st : List (Str × EventInfo)) (event : EventInfo) :
    List (Str × EventInfo) × Resp :=
  match lookupEv st event.name with
  | some _ => (st, ⟨409, .msg "Event already exists".data⟩)
  | none =>
    let p := replaceKeywordsWithPlaceholders (composeText event) event.keywords
    match runTranslations tr p.1 p.2 event.languages with
    | .error e => (st, ⟨500, .msg (errTranslating e.1 e.2)⟩)
    | .ok translations =>
      let stored := { event with translations := translations }
      ((event.name, stored) :: st, ⟨201, .event stored⟩)

/-- Model of the `getEvent` handler.  `c.Query "type"` yields the empty
string when the query parameter is absent, hence the `Option.getD []`. -/
def getEvent (st : List (Str × EventInfo)) (typeParam : Option Str) : Resp :=
  match lookupEv st (typeParam.getD []) with
  | some ev => ⟨200, .event ev⟩
  | none => ⟨404, .msg "Event not found".data⟩

/-- Concrete event used by witnesses: the `Fest` event of the specification,
asking for French and German. -/
def evFest : EventInfo :=
  ⟨"Fest".data, "Lyon".data, "Fun".data, [], [], ["fr".data, "de".data],
    ["Fest".data, "Lyon".data], []⟩

/-- Concrete translator oracle used by witnesses: succeeds on every language
except German, where it fails with cause `boom`. -/
def trFailDe : Translator :=
  fun _ lang => if lang = "de".data then .error "boom".data else .ok "ok text".data

/-- Concrete translator oracle that echoes the input text, used to contrast
oracles in witnesses. -/
def trEcho : Translator := fun text _ => .ok text

/-- Concrete event with an empty target-language list, used by witnesses. -/
def evNoLang : EventInfo :=
  ⟨"Solo".data, "Nice".data, "Calm".data, [], [], [], [], []⟩

/-- Decimal digit characters. -/
def digits10 : List Char := ['0', '1', '2', '3', '4', '5', '6', '7', '8', '9']

/-- Numeric value of a decimal digit character. -/
def digitVal (c : Char) : Nat := c.toNat - 48

/-- Value of a most-significant-first decimal digit string. -/
def valOfDigits (ds : List Char) : Nat := ds.foldl (fun a c => 10 * a + digitVal c) 0

end CustomTranslator

namespace CustomTranslator

theorem begins_nil (s : Str) : begins [] s = true := by cases s <;> rfl

theorem begins_cons_nil (a : Char) (as : Str) : begins (a :: as) [] = false := rfl

theorem begins_cons_cons (a b : Char) (as bs : Str) :
    begins (a :: as) (b :: bs) = (decide (a = b) && begins as bs) := rfl

theorem begins_iff_append {p s : Str} : begins p s = true ↔ ∃ u, s = p ++ u := by
  induction p generalizing s with
  | nil => simp [begins_nil]
  | cons a as ih =>
    cases s with
    | nil =>
      simp [begins_cons_nil]
    | cons b bs =>
      rw [begins_cons_cons]
      simp only [Bool.and_eq_true, decide_eq_true_eq, List.cons_append, ih]
      constructor
      · rintro ⟨rfl, u, rfl⟩
        exact ⟨u, rfl⟩
      · rintro ⟨u, h⟩
        obtain ⟨h1, h2⟩ := List.cons.inj h
        exact ⟨h1.symm, u, h2⟩

theorem begins_append (p u : Str) : begins p (p ++ u) = true :=
  begins_iff_append.mpr ⟨u, rfl⟩

theorem begins_refl (p : Str) : begins p p = true := by
  simpa using begins_append p []

theorem begins_length {p s : Str} (h : begins p s = true) : p.length ≤ s.length := by
  obtain ⟨u, rfl⟩ := begins_iff_append.mp h
  simp

theorem begins_head_ne {a b : Char} {as bs : Str} (h : a ≠ b) :
    begins (a :: as) (b :: bs) = false := by
  rw [begins_cons_cons]
  simp [h]

theorem begins_total {s : Str} :
    ∀ {a b : Str}, begins a s = true → begins b s = true →
      begins a b = true ∨ begins b a = true := by
  induction s with
  | nil =>
    intro a b ha hb
    cases a with
    | nil => exact Or.inl (begins_nil b)
    | cons x xs => simp [begins_cons_nil] at ha
  | cons c s' ih =>
    intro a b ha hb
    cases a with
    | nil => exact Or.inl (begins_nil b)
    | cons x xs =>
      cases b with
      | nil => exact Or.inr (begins_nil (x :: xs))
      | cons y ys =>
        rw [begins_cons_cons] at ha hb
        simp only [Bool.and_eq_true, decide_eq_true_eq] at ha hb
        obtain ⟨rfl, ha2⟩ := ha
        obtain ⟨rfl, hb2⟩ := hb
        rcases ih ha2 hb2 with h | h
        · exact Or.inl (by rw [begins_cons_cons]; simp [h])
        · exact Or.inr (by rw [begins_cons_cons]; simp [h])

theorem occurs_cons (p : Str) (c : Char) (rest : Str) :
    occurs p (c :: rest) = (begins p (c :: rest) || occurs p rest) := rfl

theorem occurs_of_begins {p s : Str} (h : begins p s = true) : occurs p s = true := by
  cases s with
  | nil => exact h
  | cons c rest => rw [occurs_cons, h]; rfl

theorem occurs_false_tail {p : Str} {c : Char} {rest : Str}
    (h : occurs p (c :: rest) = false) :
    begins p (c :: rest) = false ∧ occurs p rest = false := by
  rw [occurs_cons] at h
  exact ⟨by simpa using Bool.or_eq_false_iff.mp h |>.1,
    Bool.or_eq_false_iff.mp h |>.2⟩

theorem occurs_false_append {p u v : Str} (h : occurs p (u ++ v) = false) :
    occurs p v = false := by
  induction u with
  | nil => exact h
  | cons c u' ih => exact ih (occurs_false_tail h).2

theorem replaceAllF_congr {pat rep : Str} :
    ∀ f₁ f₂ s, s.length ≤ f₁ → s.length ≤ f₂ →
      replaceAllF f₁ pat rep s = replaceAllF f₂ pat rep s := by
  intro f₁
  induction f₁ with
  | zero =>
    intro f₂ s h₁ h₂
    have : s = [] := List.length_eq_zero.mp (Nat.le_zero.mp h₁)
    subst this
    cases f₂ <;> rfl
  | succ f ih =>
    intro f₂ s h₁ h₂
    cases s with
    | nil => cases f₂ <;> rfl
    | cons c rest =>
      cases f₂ with
      | zero => simp at h₂
      | succ g =>
        by_cases h : pat ≠ [] ∧ begins pat (c :: rest) = true
        · simp only [replaceAllF, if_pos h]
          have hpat : 1 ≤ pat.length := by
            cases hp : pat with
            | nil => exact absurd hp h.1
            | cons x xs => simp
          have hlen : ((c :: rest).drop pat.length).length ≤ f := by
            simp only [List.length_drop, List.length_cons]
            simp only [List.length_cons] at h₁
            omega
          have hlen' : ((c :: rest).drop pat.length).length ≤ g := by
            simp only [List.length_drop, List.length_cons]
            simp only [List.length_cons] at h₂
            omega
          rw [ih _ _ hlen hlen']
        · simp only [replaceAllF, if_neg h]
          have : rest.length ≤ f := by simp only [List.length_cons] at h₁; omega
          have h' : rest.length ≤ g := by simp only [List.length_cons] at h₂; omega
          rw [ih _ _ this h']

theorem replaceAll_eq_F {pat : Str} (rep s : Str) (h : pat ≠ []) :
    replaceAll pat rep s = replaceAllF s.length pat rep s := by
  simp [replaceAll, h]

theorem replaceAll_nil_text {pat : Str} (rep : Str) (h : pat ≠ []) :
    replaceAll pat rep [] = [] := by
  rw [replaceAll_eq_F rep [] h]
  rfl

theorem replaceAll_pos {pat rep s : Str} (h : pat ≠ []) (hb : begins pat s = true) :
    replaceAll pat rep s = rep ++ replaceAll pat rep (s.drop pat.length) := by
  cases s with
  | nil =>
    cases hp : pat with
    | nil => exact absurd hp h
    | cons x xs => rw [hp] at hb; simp [begins_cons_nil] at hb
  | cons c rest =>
    rw [replaceAll_eq_F rep (c :: rest) h]
    simp only [List.length_cons, replaceAllF, if_pos (And.intro h hb)]
    congr 1
    rw [replaceAll_eq_F rep _ h]
    apply replaceAllF_congr
    · have hpat : 1 ≤ pat.length := by
        cases hp : pat with
        | nil => exact absurd hp h
        | cons x xs => simp
      simp only [List.length_drop, List.length_cons]
      omega
    · exact Nat.le_refl _

theorem replaceAll_neg {pat rep : Str} {c : Char} {rest : Str} (h : pat ≠ [])
    (hb : begins pat (c :: rest) = false) :
    replaceAll pat rep (c :: rest) = c :: replaceAll pat rep rest := by
  rw [replaceAll_eq_F rep (c :: rest) h]
  have hcond : ¬ (pat ≠ [] ∧ begins pat (c :: rest) = true) := by
    rintro ⟨-, hb'⟩
    rw [hb'] at hb
    exact Bool.true_eq_false.mp hb
  simp only [List.length_cons, replaceAllF, if_neg hcond]
  rw [replaceAll_eq_F rep rest h]

theorem replaceAll_append_left {pat rep : Str} {k : Char} (hk : pat.head? = some k) :
    ∀ u X, k ∉ u → replaceAll pat rep (u ++ X) = u ++ replaceAll pat rep X := by
  intro u
  induction u with
  | nil => intro X _; rfl
  | cons c u' ih =>
    intro X hku
    have hpatne : pat ≠ [] := by
      intro h
      rw [h] at hk
      simp at hk
    have hb : begins pat (c :: (u' ++ X)) = false := by
      cases hp : pat with
      | nil => exact absurd hp hpatne
      | cons p0 tl =>
        have hp0 : p0 = k := by rw [hp] at hk; simpa using hk
        have hne : p0 ≠ c := by
          rw [hp0]
          intro hkc
          exact hku (hkc ▸ List.mem_cons_self c u')
        exact begins_head_ne hne
    rw [List.cons_append, replaceAll_neg hpatne hb,
      ih X (fun hm => hku (List.mem_cons_of_mem c hm))]
    rfl

theorem begins_replace_transfer {pat rep : Str} (P : Char → Prop)
    (hpat : pat ≠ []) (hrep : rep ≠ [])
    (hhead : ∀ c, rep.head? = some c → ¬ P c) :
    ∀ n pt s, pt ≠ [] → (∀ c ∈ pt, P c) → s.length ≤ n →
      begins pt (replaceAll pat rep s) = true → begins pt s = true := by
  intro n
  induction n with
  | zero =>
    intro pt s hpt _ hlen hb
    have : s = [] := List.length_eq_zero.mp (Nat.le_zero.mp hlen)
    subst this
    rw [replaceAll_nil_text rep hpat] at hb
    cases pt with
    | nil => exact absurd rfl hpt
    | cons a as => simp [begins_cons_nil] at hb
  | succ m ih =>
    intro pt s hpt hP hlen hb
    cases s with
    | nil =>
      rw [replaceAll_nil_text rep hpat] at hb
      cases pt with
      | nil => exact absurd rfl hpt
      | cons a as => simp [begins_cons_nil] at hb
    | cons c rest =>
      by_cases hbp : begins pat (c :: rest) = true
      · rw [replaceAll_pos hpat hbp] at hb
        cases hr : rep with
        | nil => exact absurd hr hrep
        | cons r0 rs =>
          cases pt with
          | nil => exact absurd rfl hpt
          | cons a as =>
            rw [hr, List.cons_append, begins_cons_cons] at hb
            simp only [Bool.and_eq_true, decide_eq_true_eq] at hb
            have ha : P a := hP a (List.mem_cons_self a as)
            have : ¬ P r0 := hhead r0 (by rw [hr]; rfl)
            exact absurd (hb.1 ▸ ha) this
      · have hbp' : begins pat (c :: rest) = false := by
          simpa using hbp
        rw [replaceAll_neg hpat hbp'] at hb
        cases pt with
        | nil => exact absurd rfl hpt
        | cons a as =>
          rw [begins_cons_cons] at hb
          simp only [Bool.and_eq_true, decide_eq_true_eq] at hb
          obtain ⟨rfl, hb2⟩ := hb
          rcases eq_or_ne as [] with rfl | hne
          · rw [begins_cons_cons]
            simp [begins_nil]
          · have hmem : ∀ c ∈ as, P c := fun c hc => hP c (List.mem_cons_of_mem a hc)
            have hlen' : rest.length ≤ m := by
              simp only [List.length_cons] at hlen
              omega
            have := ih as rest hne hmem hlen' hb2
            rw [begins_cons_cons]
            simp [this]

theorem natDigitsF_congr : ∀ f₁ f₂ n, n < f₁ → n < f₂ → natDigitsF f₁ n = natDigitsF f₂ n := by
  intro f₁
  induction f₁ with
  | zero => intro f₂ n h₁ _; omega
  | succ f ih =>
    intro f₂ n h₁ h₂
    cases f₂ with
    | zero => omega
    | succ g =>
      by_cases h : n < 10
      · simp only [natDigitsF, if_pos h]
      · simp only [natDigitsF, if_neg h]
        congr 1
        have hdiv : n / 10 < n := Nat.div_lt_self (by omega) (by omega)
        exact ih _ _ (by omega) (by omega)

theorem natDigits_lt (n : Nat) (h : n < 10) : natDigits n = [Nat.digitChar n] := by
  simp [natDigits, natDigitsF, h]

theorem natDigits_ge (n : Nat) (h : ¬ n < 10) :
    natDigits n = natDigits (n / 10) ++ [Nat.digitChar (n % 10)] := by
  have hdiv : n / 10 < n := Nat.div_lt_self (by omega) (by omega)
  unfold natDigits
  conv_lhs => rw [show n + 1 = n + 1 from rfl]
  rw [show natDigitsF (n + 1) n
      = if n < 10 then [Nat.digitChar n]
        else natDigitsF n (n / 10) ++ [Nat.digitChar (n % 10)] from rfl,
    if_neg h]
  congr 1
  exact natDigitsF_congr _ _ _ (by omega) (by omega)

theorem digitChar_mem_digits10 (r : Nat) (h : r < 10) : Nat.digitChar r ∈ digits10 := by
  interval_cases r <;> decide

theorem natDigits_subset_digits10 (n : Nat) : ∀ c ∈ natDigits n, c ∈ digits10 := by
  induction n using Nat.strong_induction_on with
  | _ n ih =>
    by_cases h : n < 10
    · rw [natDigits_lt n h]
      intro c hc
      rw [List.mem_singleton] at hc
      exact hc ▸ digitChar_mem_digits10 n h
    · rw [natDigits_ge n h]
      intro c hc
      rcases List.mem_append.mp hc with hc | hc
      · exact ih (n / 10) (Nat.div_lt_self (by omega) (by omega)) c hc
      · rw [List.mem_singleton] at hc
        exact hc ▸ digitChar_mem_digits10 _ (Nat.mod_lt n (by omega))

theorem digit_facts {c : Char} (h : c ∈ digits10) :
    phChar c = true ∧ c ≠ 'K' ∧ c ≠ 'P' := by
  fin_cases h <;> exact ⟨by decide, by decide, by decide⟩

theorem digitVal_digitChar (r : Nat) (h : r < 10) : digitVal (Nat.digitChar r) = r := by
  interval_cases r <;> decide

theorem valOfDigits_append_singleton (ds : List Char) (c : Char) :
    valOfDigits (ds ++ [c]) = 10 * valOfDigits ds + digitVal c := by
  simp [valOfDigits, List.foldl_append]

theorem valOfDigits_natDigits (n : Nat) : valOfDigits (natDigits n) = n := by
  induction n using Nat.strong_induction_on with
  | _ n ih =>
    by_cases h : n < 10
    · rw [natDigits_lt n h]
      simp [valOfDigits, digitVal_digitChar n h]
    · rw [natDigits_ge n h, valOfDigits_append_singleton,
        ih (n / 10) (Nat.div_lt_self (by omega) (by omega)),
        digitVal_digitChar _ (Nat.mod_lt n (by omega))]
      omega

theorem natDigits_inj {a b : Nat} (h : natDigits a = natDigits b) : a = b := by
  have := congrArg valOfDigits h
  rwa [valOfDigits_natDigits, valOfDigits_natDigits] at this

theorem begins_digits_plh :
    ∀ d₁ d₂ : List Char, (∀ c ∈ d₁, c ∈ digits10) → (∀ c ∈ d₂, c ∈ digits10) →
      begins (d₁ ++ ['P', 'L', 'H']) (d₂ ++ ['P', 'L', 'H']) = true → d₁ = d₂ := by
  intro d₁
  induction d₁ with
  | nil =>
    intro d₂ _ hd₂ hb
    cases d₂ with
    | nil => rfl
    | cons b d₂' =>
      rw [List.nil_append, List.cons_append, begins_cons_cons] at hb
      simp only [Bool.and_eq_true, decide_eq_true_eq] at hb
      have := (digit_facts (hd₂ b (List.mem_cons_self b d₂'))).2.2
      exact absurd hb.1.symm this
  | cons a d₁' ih =>
    intro d₂ hd₁ hd₂ hb
    cases d₂ with
    | nil =>
      rw [List.nil_append, List.cons_append, begins_cons_cons] at hb
      simp only [Bool.and_eq_true, decide_eq_true_eq] at hb
      have := (digit_facts (hd₁ a (List.mem_cons_self a d₁'))).2.2
      exact absurd hb.1 this
    | cons b d₂' =>
      rw [List.cons_append, List.cons_append, begins_cons_cons] at hb
      simp only [Bool.and_eq_true, decide_eq_true_eq] at hb
      obtain ⟨rfl, hb2⟩ := hb
      rw [ih d₂' (fun c hc => hd₁ c (List.mem_cons_of_mem a hc))
        (fun c hc => hd₂ c (List.mem_cons_of_mem a hc)) hb2]

theorem placeholder_begins_inj {i j : Nat}
    (h : begins (placeholder i) (placeholder j) = true) : i = j := by
  simp only [placeholder, begins_cons_cons, Bool.and_eq_true, decide_eq_true_eq] at h
  exact natDigits_inj
    (begins_digits_plh _ _ (natDigits_subset_digits10 i) (natDigits_subset_digits10 j)
      h.2.2)

theorem placeholder_inj {i j : Nat} (h : placeholder i = placeholder j) : i = j :=
  placeholder_begins_inj (h ▸ begins_refl (placeholder i))

theorem placeholder_begins_ne {i j : Nat} (h : i ≠ j) :
    begins (placeholder i) (placeholder j) = false := by
  cases hb : begins (placeholder i) (placeholder j) with
  | false => rfl
  | true => exact absurd (placeholder_begins_inj hb) h

theorem placeholder_shape (i : Nat) :
    ∃ pt, placeholder i = 'K' :: pt ∧ 'K' ∉ pt := by
  refine ⟨'W' :: (natDigits i ++ ['P', 'L', 'H']), rfl, ?_⟩
  intro hmem
  rcases List.mem_cons.mp hmem with h | h
  · exact absurd h (by decide)
  · rcases List.mem_append.mp h with h | h
    · exact absurd (digit_facts (natDigits_subset_digits10 i _ h)).2.1 (by simp)
    · revert h
      decide

theorem placeholder_ne_nil (i : Nat) : placeholder i ≠ [] := by
  simp [placeholder]

theorem placeholder_good (i : Nat) : GoodPat (placeholder i) := by
  refine ⟨'W' :: (natDigits i ++ ['P', 'L', 'H']), rfl, by simp, ?_⟩
  intro c hc
  rcases List.mem_cons.mp hc with rfl | h
  · exact ⟨by decide, by decide⟩
  · rcases List.mem_append.mp h with h | h
    · have := digit_facts (natDigits_subset_digits10 i _ h)
      exact ⟨this.1, this.2.1⟩
    · fin_cases h <;> exact ⟨by decide, by decide⟩

theorem replace_roundtrip (kw ph : Str) (hkw : kw ≠ []) (pt : Str)
    (hph : ph = 'K' :: pt) (hK : 'K' ∉ pt) :
    ∀ n t, t.length ≤ n → occurs ph t = false →
      replaceAll ph kw (replaceAll kw ph t) = t := by
  have hphne : ph ≠ [] := by rw [hph]; simp
  intro n
  induction n with
  | zero =>
    intro t hlen _
    have : t = [] := List.length_eq_zero.mp (Nat.le_zero.mp hlen)
    subst this
    rw [replaceAll_nil_text ph hkw, replaceAll_nil_text kw hphne]
  | succ m ih =>
    intro t hlen hocc
    cases t with
    | nil => rw [replaceAll_nil_text ph hkw, replaceAll_nil_text kw hphne]
    | cons c rest =>
      by_cases hb : begins kw (c :: rest) = true
      · obtain ⟨t₀, ht⟩ := begins_iff_append.mp hb
        rw [ht] at hocc ⊢
        rw [replaceAll_pos hkw (begins_append kw t₀), List.drop_left,
          replaceAll_pos hphne (begins_append ph _), List.drop_left]
        congr 1
        have hkwlen : 1 ≤ kw.length := List.length_pos.mpr hkw
        have hlen' : t₀.length ≤ m := by
          have := congrArg List.length ht
          simp only [List.length_cons, List.length_append] at this
          simp only [List.length_cons] at hlen
          omega
        exact ih t₀ hlen' (occurs_false_append hocc)
      · have hb' : begins kw (c :: rest) = false := by simpa using hb
        rw [replaceAll_neg hkw hb']
        have hoccrest := (occurs_false_tail hocc).2
        have hbeg := (occurs_false_tail hocc).1
        have hb2 : begins ph (c :: replaceAll kw ph rest) = false := by
          cases hbt : begins ph (c :: replaceAll kw ph rest) with
          | false => rfl
          | true =>
            exfalso
            rw [hph, begins_cons_cons] at hbt
            simp only [Bool.and_eq_true, decide_eq_true_eq] at hbt
            obtain ⟨hc, hbt2⟩ := hbt
            rcases eq_or_ne pt [] with rfl | hptne
            · rw [hph, ← hc, begins_cons_cons] at hbeg
              simp [begins_nil] at hbeg
            · rw [← hph] at hbt2
              have htr := begins_replace_transfer (fun ch => ch ≠ 'K') hkw hphne
                (fun ch hch => by
                  rw [hph] at hch
                  simp only [List.head?_cons, Option.some.injEq] at hch
                  subst hch
                  simp)
                rest.length pt rest hptne (fun ch hch heq => hK (heq ▸ hch))
                (Nat.le_refl _) hbt2
              rw [hph, ← hc, begins_cons_cons] at hbeg
              simp [htr] at hbeg
        rw [replaceAll_neg hphne hb2]
        have hlen' : rest.length ≤ m := by
          simp only [List.length_cons] at hlen
          omega
        rw [ih rest hlen' hoccrest]

theorem unshield_append_singleton (s : Str) (l : List (Str × Str)) (e : Str × Str) :
    replacePlaceholdersWithKeywords s (l ++ [e])
      = replaceAll e.1 e.2 (replacePlaceholdersWithKeywords s l) := by
  simp [replacePlaceholdersWithKeywords, List.foldl_append]

theorem shield_unshield_rev_aux :
    ∀ (kws : List Str) (t : Str) (i : Nat), (∀ kw ∈ kws, kw ≠ []) →
      shieldSafe t kws i = true →
      replacePlaceholdersWithKeywords (shieldFrom t kws i).1
        ((shieldFrom t kws i).2).reverse = t := by
  intro kws
  induction kws with
  | nil => intro t i _ _; rfl
  | cons kw kws ih =>
    intro t i hkw hsafe
    simp only [shieldSafe, Bool.and_eq_true, Bool.not_eq_true'] at hsafe
    obtain ⟨hocc, hsafe'⟩ := hsafe
    simp only [shieldFrom]
    rw [List.reverse_cons, unshield_append_singleton,
      ih _ _ (fun k hk => hkw k (List.mem_cons_of_mem kw hk)) hsafe']
    obtain ⟨pt, hph, hKm⟩ := placeholder_shape i
    exact replace_roundtrip kw (placeholder i) (hkw kw (List.mem_cons_self kw kws))
      pt hph hKm t.length t (Nat.le_refl _) hocc

theorem shieldFrom_characterization :
    ∀ (kws : List Str) (t : Str) (i : Nat),
      shieldFrom t kws i =
        ((List.enumFrom i kws).foldl (fun s p => replaceAll p.2 (placeholder p.1) s) t,
         (List.enumFrom i kws).map fun p => (placeholder p.1, p.2)) := by
  intro kws
  induction kws with
  | nil => intro t i; rfl
  | cons kw kws ih =>
    intro t i
    simp only [shieldFrom, List.enumFrom, List.foldl_cons, List.map_cons]
    rw [ih]

theorem goodPat_ne_nil {p : Str} (h : GoodPat p) : p ≠ [] := by
  obtain ⟨tl, rfl, -, -⟩ := h
  simp

theorem goodPat_head {p : Str} (h : GoodPat p) : p.head? = some 'K' := by
  obtain ⟨tl, rfl, -, -⟩ := h
  rfl

theorem goodRep_not_K {r : Str} (h : GoodRep r) : 'K' ∉ r := fun hm =>
  absurd (h.2 'K' hm) (by decide)

theorem not_begins_of_append {p₁ p₂ : Str} (h₁₂ : begins p₁ p₂ = false)
    (h₂₁ : begins p₂ p₁ = false) (w : Str) : begins p₂ (p₁ ++ w) = false := by
  cases hb : begins p₂ (p₁ ++ w) with
  | false => rfl
  | true =>
    exfalso
    rcases begins_total (begins_append p₁ w) hb with h | h
    · simp [h] at h₁₂
    · simp [h] at h₂₁

theorem pass_pat {p₁ p₂ : Str} (r₂ : Str) (h₁ : GoodPat p₁) (h₂ : GoodPat p₂)
    (h₁₂ : begins p₁ p₂ = false) (h₂₁ : begins p₂ p₁ = false) (X : Str) :
    replaceAll p₂ r₂ (p₁ ++ X) = p₁ ++ replaceAll p₂ r₂ X := by
  have hb : begins p₂ (p₁ ++ X) = false := not_begins_of_append h₁₂ h₂₁ X
  obtain ⟨tl₁, hp₁, htlne, htl⟩ := h₁
  have hKtl : 'K' ∉ tl₁ := fun hm => (htl 'K' hm).2 rfl
  rw [hp₁] at hb ⊢
  rw [List.cons_append] at hb ⊢
  rw [replaceAll_neg (goodPat_ne_nil h₂) hb,
    replaceAll_append_left (goodPat_head h₂) tl₁ X hKtl]
  rfl

theorem no_new_begins {p r q : Str} (hq : GoodPat q) (hpne : p ≠ []) (g : GoodRep r)
    (c : Char) (rest : Str) (hb : begins q (c :: rest) = false) :
    begins q (c :: replaceAll p r rest) = false := by
  cases hbt : begins q (c :: replaceAll p r rest) with
  | false => rfl
  | true =>
    exfalso
    obtain ⟨tl, hq_eq, htlne, htl⟩ := hq
    rw [hq_eq, begins_cons_cons] at hbt
    simp only [Bool.and_eq_true, decide_eq_true_eq] at hbt
    obtain ⟨hc, hbt2⟩ := hbt
    have htr := begins_replace_transfer (fun ch => phChar ch = true) hpne g.1
      (fun ch hch => by
        cases hr : r with
        | nil => exact absurd hr g.1
        | cons r0 rs =>
          rw [hr] at hch
          simp only [List.head?_cons, Option.some.injEq] at hch
          subst hch
          have := g.2 r0 (by rw [hr]; exact List.mem_cons_self r0 rs)
          simp [this])
      rest.length tl rest htlne (fun ch hch => (htl ch hch).1) (Nat.le_refl _) hbt2
    rw [hq_eq, ← hc, begins_cons_cons] at hb
    simp [htr] at hb

theorem replaceAll_comm {p₁ r₁ p₂ r₂ : Str} (h₁ : GoodPat p₁) (h₂ : GoodPat p₂)
    (g₁ : GoodRep r₁) (g₂ : GoodRep r₂)
    (h₁₂ : begins p₁ p₂ = false) (h₂₁ : begins p₂ p₁ = false) :
    ∀ n t, t.length ≤ n →
      replaceAll p₂ r₂ (replaceAll p₁ r₁ t) = replaceAll p₁ r₁ (replaceAll p₂ r₂ t) := by
  have hp₁ne := goodPat_ne_nil h₁
  have hp₂ne := goodPat_ne_nil h₂
  intro n
  induction n with
  | zero =>
    intro t hlen
    have : t = [] := List.length_eq_zero.mp (Nat.le_zero.mp hlen)
    subst this
    rw [replaceAll_nil_text r₁ hp₁ne, replaceAll_nil_text r₂ hp₂ne,
      replaceAll_nil_text r₁ hp₁ne]
  | succ m ih =>
    intro t hlen
    cases hb₁ : begins p₁ t with
    | true =>
      obtain ⟨t₀, rfl⟩ := begins_iff_append.mp hb₁
      rw [replaceAll_pos hp₁ne (begins_append p₁ t₀), List.drop_left,
        replaceAll_append_left (goodPat_head h₂) r₁ _ (goodRep_not_K g₁),
        pass_pat r₂ h₁ h₂ h₁₂ h₂₁ t₀,
        replaceAll_pos hp₁ne (begins_append p₁ _), List.drop_left]
      congr 1
      apply ih t₀
      have : 1 ≤ p₁.length := List.length_pos.mpr hp₁ne
      simp only [List.length_append] at hlen
      omega
    | false =>
      cases hb₂ : begins p₂ t with
      | true =>
        obtain ⟨t₀, rfl⟩ := begins_iff_append.mp hb₂
        rw [replaceAll_pos hp₂ne (begins_append p₂ t₀), List.drop_left,
          replaceAll_append_left (goodPat_head h₁) r₂ _ (goodRep_not_K g₂),
          pass_pat r₁ h₂ h₁ h₂₁ h₁₂ t₀,
          replaceAll_pos hp₂ne (begins_append p₂ _), List.drop_left]
        congr 1
        apply ih t₀
        have : 1 ≤ p₂.length := List.length_pos.mpr hp₂ne
        simp only [List.length_append] at hlen
        omega
      | false =>
        cases t with
        | nil =>
          rw [replaceAll_nil_text r₁ hp₁ne, replaceAll_nil_text r₂ hp₂ne,
            replaceAll_nil_text r₁ hp₁ne]
        | cons c rest =>
          rw [replaceAll_neg hp₁ne hb₁, replaceAll_neg hp₂ne hb₂,
            replaceAll_neg hp₂ne (no_new_begins h₂ hp₁ne g₁ c rest hb₂),
            replaceAll_neg hp₁ne (no_new_begins h₁ hp₂ne g₂ c rest hb₁)]
          congr 1
          apply ih rest
          simp only [List.length_cons] at hlen
          omega

theorem unshield_perm :
    ∀ {l l' : List (Str × Str)}, l.Perm l' →
      (∀ e ∈ l, GoodPat e.1 ∧ GoodRep e.2) →
      l.Pairwise (fun a b => begins a.1 b.1 = false ∧ begins b.1 a.1 = false) →
      ∀ T, replacePlaceholdersWithKeywords T l = replacePlaceholdersWithKeywords T l' := by
  intro l l' hp
  induction hp with
  | nil => intro _ _ T; rfl
  | cons x hp ih =>
    intro hg hsep T
    exact ih (fun e he => hg e (List.mem_cons_of_mem x he))
      (List.pairwise_cons.mp hsep).2 (replaceAll x.1 x.2 T)
  | swap x y l =>
    intro hg hsep T
    show replacePlaceholdersWithKeywords (replaceAll x.1 x.2 (replaceAll y.1 y.2 T)) l
      = replacePlaceholdersWithKeywords (replaceAll y.1 y.2 (replaceAll x.1 x.2 T)) l
    congr 1
    have hy := hg y (List.mem_cons_self y (x :: l))
    have hx := hg x (List.mem_cons_of_mem y (List.mem_cons_self x l))
    have hrel := (List.pairwise_cons.mp hsep).1 x (List.mem_cons_self x l)
    exact replaceAll_comm hy.1 hx.1 hy.2 hx.2 hrel.1 hrel.2 T.length T (Nat.le_refl _)
  | trans h₁ h₂ ih₁ ih₂ =>
    intro hg hsep T
    rw [ih₁ hg hsep T]
    exact ih₂ (fun e he => hg e (h₁.mem_iff.mpr he))
      ((List.Perm.pairwise_iff (fun h => ⟨h.2, h.1⟩) h₁).mp hsep) T

theorem mem_enumFrom_iff :
    ∀ (l : List Str) (n : Nat) (p : Nat × Str),
      p ∈ List.enumFrom n l ↔ ∃ j, ∃ h : j < l.length, p = (n + j, l.get ⟨j, h⟩) := by
  intro l
  induction l with
  | nil => intro n p; simp [List.enumFrom]
  | cons a l ih =>
    intro n p
    simp only [List.enumFrom, List.mem_cons, ih]
    constructor
    · rintro (rfl | ⟨j, h, rfl⟩)
      · exact ⟨0, by simp, by simp⟩
      · refine ⟨j + 1, Nat.succ_lt_succ h, ?_⟩
        rw [show n + 1 + j = n + (j + 1) from by omega]
        rfl
    · rintro ⟨j, h, rfl⟩
      cases j with
      | zero => exact Or.inl (by simp)
      | succ j =>
        refine Or.inr ⟨j, Nat.lt_of_succ_lt_succ (by simpa using h), ?_⟩
        rw [show n + (j + 1) = n + 1 + j from by omega]
        rfl

theorem pairwise_fst_lt_enumFrom :
    ∀ (l : List Str) (n : Nat),
      List.Pairwise (fun p q => p.1 < q.1) (List.enumFrom n l) := by
  intro l
  induction l with
  | nil => intro n; simp [List.enumFrom]
  | cons a l ih =>
    intro n
    simp only [List.enumFrom]
    constructor
    · intro q hq
      obtain ⟨j, h, rfl⟩ := (mem_enumFrom_iff l (n + 1) q).mp hq
      simp only []
      omega
    · exact ih (n + 1)

theorem shield_snd_good (t : Str) (kws : List Str)
    (hkw : ∀ kw ∈ kws, kw ≠ [] ∧ ∀ c ∈ kw, phChar c = false) :
    ∀ e ∈ (replaceKeywordsWithPlaceholders t kws).2, GoodPat e.1 ∧ GoodRep e.2 := by
  intro e he
  rw [replaceKeywordsWithPlaceholders, shieldFrom_characterization] at he
  simp only [List.mem_map] at he
  obtain ⟨p, hp, rfl⟩ := he
  obtain ⟨j, h, rfl⟩ := (mem_enumFrom_iff kws 0 p).mp hp
  refine ⟨placeholder_good _, ?_⟩
  have hmem : kws.get ⟨j, h⟩ ∈ kws := List.get_mem kws j h
  exact ⟨(hkw _ hmem).1, (hkw _ hmem).2⟩

theorem shield_snd_sep (t : Str) (kws : List Str) :
    ((replaceKeywordsWithPlaceholders t kws).2).Pairwise
      (fun a b => begins a.1 b.1 = false ∧ begins b.1 a.1 = false) := by
  rw [replaceKeywordsWithPlaceholders, shieldFrom_characterization, List.pairwise_map]
  exact (pairwise_fst_lt_enumFrom kws 0).imp
    (fun hab => ⟨placeholder_begins_ne (by omega), placeholder_begins_ne (by omega)⟩)

theorem enumFrom_map_fst_eq :
    ∀ (l : List Str) (n : Nat),
      (List.enumFrom n l).map Prod.fst = List.range' n l.length := by
  intro l
  induction l with
  | nil => intro n; rfl
  | cons a l ih =>
    intro n
    simp only [List.enumFrom, List.map_cons, List.length_cons, List.range']
    rw [ih]

theorem mem_shield_snd {t : Str} {kws : List Str} {e : Str × Str} :
    e ∈ (replaceKeywordsWithPlaceholders t kws).2 ↔
      ∃ j, ∃ h : j < kws.length, e = (placeholder j, kws.get ⟨j, h⟩) := by
  rw [replaceKeywordsWithPlaceholders, shieldFrom_characterization]
  simp only [List.mem_map]
  constructor
  · rintro ⟨p, hp, rfl⟩
    obtain ⟨j, h, rfl⟩ := (mem_enumFrom_iff kws 0 p).mp hp
    exact ⟨j, h, by rw [Nat.zero_add]⟩
  · rintro ⟨j, h, rfl⟩
    exact ⟨(j, kws.get ⟨j, h⟩),
      (mem_enumFrom_iff kws 0 _).mpr ⟨j, h, by rw [Nat.zero_add]⟩, rfl⟩

theorem runTranslations_of_firstFailure {tr : Translator} {p : Str}
    (m : List (Str × Str)) :
    ∀ {langs : List Str} {e : Str × Str}, firstFailure tr p langs = some e →
      runTranslations tr p m langs = .error e := by
  intro langs
  induction langs with
  | nil => intro e h; simp [firstFailure] at h
  | cons lang rest ih =>
    intro e h
    cases htr : tr p lang with
    | error cause =>
      have he : some (lang, cause) = some e := by
        rw [← h]
        simp [firstFailure, htr]
      obtain rfl := Option.some.inj he
      simp [runTranslations, htr]
    | ok txt =>
      have h' : firstFailure tr p rest = some e := by
        rw [← h]
        simp [firstFailure, htr]
      simp [runTranslations, htr, ih h']

theorem firstFailure_spec {tr : Translator} {p : Str} :
    ∀ {langs : List Str} {lang cause : Str},
      firstFailure tr p langs = some (lang, cause) →
      lang ∈ langs ∧ tr p lang = .error cause := by
  intro langs
  induction langs with
  | nil => intro lang cause h; simp [firstFailure] at h
  | cons l rest ih =>
    intro lang cause h
    cases htr : tr p l with
    | error c =>
      have he : some (l, c) = some (lang, cause) := by
        rw [← h]
        simp [firstFailure, htr]
      simp only [Option.some.injEq, Prod.mk.injEq] at he
      obtain ⟨rfl, rfl⟩ := he
      exact ⟨List.mem_cons_self _ _, htr⟩
    | ok txt =>
      have h' : firstFailure tr p rest = some (lang, cause) := by
        rw [← h]
        simp [firstFailure, htr]
      obtain ⟨hmem, htr'⟩ := ih h'
      exact ⟨List.mem_cons_of_mem _ hmem, htr'⟩

theorem firstFailure_exists {tr : Translator} {p : Str} :
    ∀ {langs : List Str}, (∃ lang ∈ langs, ∃ cause, tr p lang = .error cause) →
      ∃ lc, firstFailure tr p langs = some lc := by
  intro langs
  induction langs with
  | nil =>
    rintro ⟨lang, hmem, -⟩
    simp at hmem
  | cons l rest ih =>
    rintro ⟨lang, hmem, cause, herr⟩
    cases htr : tr p l with
    | error c => exact ⟨(l, c), by simp [firstFailure, htr]⟩
    | ok txt =>
      rcases List.mem_cons.mp hmem with rfl | hmem'
      · rw [htr] at herr
        simp at herr
      · obtain ⟨lc, hlc⟩ := ih ⟨lang, hmem', cause, herr⟩
        exact ⟨lc, by simp [firstFailure, htr, hlc]⟩

/-- Claim C1, counterexample: with text `KW0PLH` and the single non-empty
keyword `x` (which occurs nowhere, so no keyword crosses any placeholder
boundary), unshielding the shielded text yields `x`, not the original text:
the round trip fails because the original text already contains a
placeholder token. -/
theorem shield_roundtrip_cex :
    ("x".data : Str) ≠ [] ∧
    replacePlaceholdersWithKeywords
        (replaceKeywordsWithPlaceholders "KW0PLH".data ["x".data]).1
        (replaceKeywordsWithPlaceholders "KW0PLH".data ["x".data]).2
      ≠ "KW0PLH".data := by decide

/-- Claim C1, amended: for every text and every list of non-empty keywords,
if at each shielding step the placeholder about to be introduced does not
already occur in the current text (`shieldSafe`, which in particular rules
out placeholder tokens in the original text), then unshielding the shielded
text — iterating the reverse mapping most-recently-shielded first, one fixed
iteration order of the Go map whose order is unspecified — restores the
original text exactly. -/
theorem shield_roundtrip_amended (t : Str) (kws : List Str)
    (hkw : ∀ kw ∈ kws, kw ≠ []) (hsafe : shieldSafe t kws 0 = true) :
    replacePlaceholdersWithKeywords (replaceKeywordsWithPlaceholders t kws).1
      ((replaceKeywordsWithPlaceholders t kws).2).reverse = t :=
  shield_unshield_rev_aux kws t 0 hkw hsafe

/-- Witness for the amended claim C1 on the specification's own example:
text `Fest Location: Lyon Details: Fun ` with keywords `Fest` and `Lyon`. -/
theorem shield_roundtrip_amended_witness :
    ((∀ kw ∈ (["Fest".data, "Lyon".data] : List Str), kw ≠ []) ∧
      shieldSafe "Fest Location: Lyon Details: Fun ".data
        ["Fest".data, "Lyon".data] 0 = true) ∧
    replacePlaceholdersWithKeywords
        (replaceKeywordsWithPlaceholders "Fest Location: Lyon Details: Fun ".data
          ["Fest".data, "Lyon".data]).1
        ((replaceKeywordsWithPlaceholders "Fest Location: Lyon Details: Fun ".data
          ["Fest".data, "Lyon".data]).2).reverse
      = "Fest Location: Lyon Details: Fun ".data :=
  ⟨⟨by decide, by decide⟩, shield_roundtrip_amended _ _ (by decide) (by decide)⟩

/-- Claim C2: `replaceKeywordsWithPlaceholders` processes the keywords
strictly in input-list order — the result is the left fold of
`strings.ReplaceAll` steps over the indexed keyword list — the placeholder
for the keyword at index `i` is `placeholder i`, a function of the index
alone, every occurrence of the keyword in the current text is replaced in
each step, each (placeholder, keyword) pair is recorded in the returned
mapping in that order, and the keys of the mapping are exactly the
placeholders of the indices `0, …, n-1`. -/
theorem shield_processes_in_order (t : Str) (kws : List Str) :
    replaceKeywordsWithPlaceholders t kws =
      (kws.enum.foldl (fun s p => replaceAll p.2 (placeholder p.1) s) t,
       kws.enum.map fun p => (placeholder p.1, p.2)) ∧
    ((replaceKeywordsWithPlaceholders t kws).2).map Prod.fst
      = (List.range kws.length).map placeholder := by
  have h := shieldFrom_characterization kws t 0
  refine ⟨h, ?_⟩
  rw [replaceKeywordsWithPlaceholders, h]
  simp only [List.map_map]
  rw [show ((Prod.fst ∘ fun p : Nat × Str => (placeholder p.1, p.2)))
      = placeholder ∘ Prod.fst from rfl,
    ← List.map_map, enumFrom_map_fst_eq, ← List.range_eq_range']

/-- Claim C3: if the name is fresh and the translator fails on some requested
language, then `postEvent` leaves the event table unchanged and answers with
the single 500 error naming the (first) failing language and its cause — no
partial language-to-text mapping is observable. -/
theorem postEvent_failure_aborts (tr : Translator) (st : List (Str × EventInfo))
    (event : EventInfo) (hfresh : lookupEv st event.name = none)
    (hfail : ∃ lang ∈ event.languages, ∃ cause,
      tr (replaceKeywordsWithPlaceholders (composeText event) event.keywords).1 lang
        = .error cause) :
    (postEvent tr st event).1 = st ∧
    ∃ lang cause, lang ∈ event.languages ∧
      tr (replaceKeywordsWithPlaceholders (composeText event) event.keywords).1 lang
        = .error cause ∧
      (postEvent tr st event).2 = ⟨500, .msg (errTranslating lang cause)⟩ := by
  obtain ⟨⟨lang, cause⟩, hff⟩ := firstFailure_exists hfail
  obtain ⟨hmem, herr⟩ := firstFailure_spec hff
  have hrun := runTranslations_of_firstFailure
    (replaceKeywordsWithPlaceholders (composeText event) event.keywords).2 hff
  have hpe : postEvent tr st event = (st, ⟨500, .msg (errTranslating lang cause)⟩) := by
    simp [postEvent, hfresh, hrun]
  exact ⟨by rw [hpe], lang, cause, hmem, herr, by rw [hpe]⟩

/-- Witness for claim C3 at the specification's scenario: languages
`["fr", "de"]` with a translator that succeeds on `fr` and fails on `de`
with cause `boom`; the table stays empty and the answer is the single 500
error naming `de`. -/
theorem postEvent_failure_aborts_witness :
    (lookupEv [] evFest.name = none ∧
      ∃ lang ∈ evFest.languages, ∃ cause,
        trFailDe
            (replaceKeywordsWithPlaceholders (composeText evFest) evFest.keywords).1 lang
          = .error cause) ∧
    ((postEvent trFailDe [] evFest).1 = [] ∧
      ∃ lang cause, lang ∈ evFest.languages ∧
        trFailDe
            (replaceKeywordsWithPlaceholders (composeText evFest) evFest.keywords).1 lang
          = .error cause ∧
        (postEvent trFailDe [] evFest).2 = ⟨500, .msg (errTranslating lang cause)⟩) :=
  ⟨⟨rfl, ⟨"de".data, by decide, "boom".data, rfl⟩⟩,
    postEvent_failure_aborts trFailDe [] evFest rfl
      ⟨"de".data, by decide, "boom".data, rfl⟩⟩

/-- Claim C4: composing the source text for an event named `Fest` at `Lyon`
with details `Fun`, no links and an empty sponsored message yields exactly
`Fest Location: Lyon Details: Fun ` — trailing space included, no keyword
substitution applied. -/
theorem composeText_fest :
    composeText ⟨"Fest".data, "Lyon".data, "Fun".data, [], [], [], [], []⟩
      = "Fest Location: Lyon Details: Fun ".data := by decide

/-- Claim C5: with the empty keyword list, shielding returns the text
unchanged together with the empty reverse mapping, and unshielding with the
empty mapping returns its input unchanged. -/
theorem shield_unshield_empty_keywords (t : Str) :
    replaceKeywordsWithPlaceholders t [] = (t, []) ∧
      replacePlaceholdersWithKeywords t [] = t :=
  ⟨rfl, rfl⟩

/-- Claim C6, counterexample: for the mapping produced by shielding the text
`a` with keywords `a` and `KW0PLH` (the second keyword is the first
placeholder token), iterating the mapping in its two opposite orders over
the translated text `KW1PLH` gives different results, although the two
orders are permutations of one another. -/
theorem unshield_order_cex :
    List.Perm ((replaceKeywordsWithPlaceholders "a".data ["a".data, "KW0PLH".data]).2)
      (((replaceKeywordsWithPlaceholders "a".data ["a".data, "KW0PLH".data]).2).reverse) ∧
    replacePlaceholdersWithKeywords "KW1PLH".data
        ((replaceKeywordsWithPlaceholders "a".data ["a".data, "KW0PLH".data]).2)
      ≠ replacePlaceholdersWithKeywords "KW1PLH".data
        (((replaceKeywordsWithPlaceholders "a".data ["a".data, "KW0PLH".data]).2).reverse) :=
  ⟨(List.reverse_perm _).symm, by decide⟩

/-- Claim C6, amended: for every translated text and every reverse mapping
produced by shielding with non-empty keywords containing no
placeholder-alphabet character (`K`, `W`, `P`, `L`, `H`, digits), any
iteration order of the mapping's entries yields the same unshielded
string — the placeholder tokens are disjoint by construction and the
keywords cannot interfere with them. -/
theorem unshield_order_irrelevant_amended (t T : Str) (kws : List Str)
    (hkw : ∀ kw ∈ kws, kw ≠ [] ∧ ∀ c ∈ kw, phChar c = false)
    (m' : List (Str × Str))
    (hperm : List.Perm ((replaceKeywordsWithPlaceholders t kws).2) m') :
    replacePlaceholdersWithKeywords T m'
      = replacePlaceholdersWithKeywords T ((replaceKeywordsWithPlaceholders t kws).2) :=
  (unshield_perm hperm (shield_snd_good t kws hkw) (shield_snd_sep t kws) T).symm

/-- Witness for the amended claim C6: keywords `go` and `og` (free of
placeholder-alphabet characters), with the mapping iterated in reverse
order over a translated text containing both placeholders. -/
theorem unshield_order_irrelevant_amended_witness :
    ((∀ kw ∈ (["go".data, "og".data] : List Str),
        kw ≠ [] ∧ ∀ c ∈ kw, phChar c = false) ∧
      List.Perm ((replaceKeywordsWithPlaceholders "go og".data ["go".data, "og".data]).2)
        (((replaceKeywordsWithPlaceholders "go og".data ["go".data, "og".data]).2).reverse)) ∧
    replacePlaceholdersWithKeywords "KW1PLH x KW0PLH".data
        (((replaceKeywordsWithPlaceholders "go og".data ["go".data, "og".data]).2).reverse)
      = replacePlaceholdersWithKeywords "KW1PLH x KW0PLH".data
        ((replaceKeywordsWithPlaceholders "go og".data ["go".data, "og".data]).2) :=
  ⟨⟨by decide, (List.reverse_perm _).symm⟩,
    unshield_order_irrelevant_amended _ _ _ (by decide) _ ((List.reverse_perm _).symm)⟩

/-- Claim C7: when the requested language list is empty and the name is
fresh, `postEvent` succeeds with an empty language-to-translation mapping —
it stores the event with empty translations and answers 201 — and its result
does not depend on the translator oracle at all (the translator is invoked
zero times). -/
theorem postEvent_empty_languages (tr tr' : Translator) (st : List (Str × EventInfo))
    (event : EventInfo) (hfresh : lookupEv st event.name = none)
    (hlang : event.languages = []) :
    postEvent tr st event =
      ((event.name, { event with translations := [] }) :: st,
       ⟨201, .event { event with translations := [] }⟩) ∧
    postEvent tr st event = postEvent tr' st event := by
  have h : ∀ tr₀ : Translator,
      postEvent tr₀ st event =
        ((event.name, { event with translations := [] }) :: st,
         ⟨201, .event { event with translations := [] }⟩) := by
    intro tr₀
    simp [postEvent, hfresh, hlang, runTranslations]
  exact ⟨h tr, (h tr).trans (h tr').symm⟩

/-- Witness for claim C7: an event with no requested languages, posted to
the empty table, for two different translator oracles. -/
theorem postEvent_empty_languages_witness :
    (lookupEv [] evNoLang.name = none ∧ evNoLang.languages = []) ∧
    (postEvent trFailDe [] evNoLang =
        ((evNoLang.name, { evNoLang with translations := [] }) :: [],
         ⟨201, .event { evNoLang with translations := [] }⟩) ∧
      postEvent trFailDe [] evNoLang = postEvent trEcho [] evNoLang) :=
  ⟨⟨rfl, rfl⟩, postEvent_empty_languages trFailDe trEcho [] evNoLang rfl rfl⟩

/-- Claim C8, counterexample: for the duplicate keyword list `[a, a]` the
returned mapping is not one-to-one — the two distinct placeholders `KW0PLH`
and `KW1PLH` both map to the keyword `a`. -/
theorem placeholder_map_one_to_one_cex :
    ¬ OneToOne ((replaceKeywordsWithPlaceholders "a".data ["a".data, "a".data]).2) := by
  intro h
  have := h.2 "KW0PLH".data "KW1PLH".data "a".data (by decide) (by decide)
  exact absurd this (by decide)

/-- Claim C8, amended: for every keyword list without duplicate keywords,
the mapping returned by `replaceKeywordsWithPlaceholders` is one-to-one:
each placeholder maps to exactly one keyword and no two placeholders map to
the same keyword. -/
theorem placeholder_map_one_to_one_amended (t : Str) (kws : List Str)
    (hnd : kws.Nodup) :
    OneToOne ((replaceKeywordsWithPlaceholders t kws).2) := by
  constructor
  · intro p k₁ k₂ h1 h2
    obtain ⟨j₁, hj₁, he₁⟩ := mem_shield_snd.mp h1
    obtain ⟨j₂, hj₂, he₂⟩ := mem_shield_snd.mp h2
    rw [Prod.mk.injEq] at he₁ he₂
    have hp : placeholder j₁ = placeholder j₂ := by rw [← he₁.1, ← he₂.1]
    obtain rfl := placeholder_inj hp
    rw [he₁.2, he₂.2]
  · intro p₁ p₂ k h1 h2
    obtain ⟨j₁, hj₁, he₁⟩ := mem_shield_snd.mp h1
    obtain ⟨j₂, hj₂, he₂⟩ := mem_shield_snd.mp h2
    rw [Prod.mk.injEq] at he₁ he₂
    have hget : kws.get ⟨j₁, hj₁⟩ = kws.get ⟨j₂, hj₂⟩ := by rw [← he₁.2, ← he₂.2]
    have hj : j₁ = j₂ :=
      congrArg Fin.val (List.nodup_iff_injective_get.mp hnd hget)
    subst hj
    rw [he₁.1, he₂.1]

/-- Witness for the amended claim C8 with the duplicate-free keyword list
`[Fest, Lyon]`. -/
theorem placeholder_map_one_to_one_amended_witness :
    (["Fest".data, "Lyon".data] : List Str).Nodup ∧
      OneToOne ((replaceKeywordsWithPlaceholders "x".data
        ["Fest".data, "Lyon".data]).2) :=
  ⟨by decide, placeholder_map_one_to_one_amended _ _ (by decide)⟩

/-- Claim C9: a creation request for a name already present in the table is
answered with 409 Conflict, the table is returned unchanged (so the stored
entry for that name is untouched), and the translation pipeline is not run —
the result is the same for every translator oracle. -/
theorem postEvent_conflict (tr : Translator) (st : List (Str × EventInfo))
    (event e₀ : EventInfo) (hex : lookupEv st event.name = some e₀) :
    postEvent tr st event = (st, ⟨409, .msg "Event already exists".data⟩) ∧
    lookupEv (postEvent tr st event).1 event.name = some e₀ := by
  have h : postEvent tr st event = (st, ⟨409, .msg "Event already exists".data⟩) := by
    simp [postEvent, hex]
  exact ⟨h, by rw [h]; exact hex⟩

/-- Witness for claim C9: posting `evFest` onto a table that already stores
an event named `Fest`. -/
theorem postEvent_conflict_witness :
    lookupEv [("Fest".data, evFest)] evFest.name = some evFest ∧
    (postEvent trEcho [("Fest".data, evFest)] evFest
        = ([("Fest".data, evFest)], ⟨409, .msg "Event already exists".data⟩) ∧
      lookupEv (postEvent trEcho [("Fest".data, evFest)] evFest).1 evFest.name
        = some evFest) :=
  ⟨by decide, postEvent_conflict trEcho _ evFest evFest (by decide)⟩

/-- Claim C10: retrieving with a missing or empty `type` query parameter
never errors — `getEvent` looks up the empty string as an event name and
answers 404 unless an event with the empty name is stored, in which case it
answers 200 with that event. -/
theorem getEvent_empty_type (st : List (Str × EventInfo)) (o : Option Str)
    (h : o = none ∨ o = some []) :
    (lookupEv st [] = none →
      getEvent st o = ⟨404, .msg "Event not found".data⟩) ∧
    (∀ e, lookupEv st [] = some e → getEvent st o = ⟨200, .event e⟩) := by
  have ho : o.getD [] = [] := by rcases h with rfl | rfl <;> rfl
  constructor
  · intro hn
    simp [getEvent, ho, hn]
  · intro e he
    simp [getEvent, ho, he]

/-- Witness for claim C10: a missing `type` parameter against a table whose
only entry has the empty string as its name. -/
theorem getEvent_empty_type_witness :
    (none = (none : Option Str) ∨ none = some ([] : Str)) ∧
    ((lookupEv [(([] : Str), evFest)] [] = none →
        getEvent [(([] : Str), evFest)] none = ⟨404, .msg "Event not found".data⟩) ∧
      (∀ e, lookupEv [(([] : Str), evFest)] [] = some e →
        getEvent [(([] : Str), evFest)] none = ⟨200, .event e⟩)) :=
  ⟨Or.inl rfl, getEvent_empty_type _ none (Or.inl rfl)⟩

end CustomTranslator
